import Mathlib

/-!
Verification of the hierarchical-table parser in `checktools/tools/parseyu.py`.

The Python module is shallowly embedded: rows live in an explicit store
(`Store`, a list of `RowData` indexed by allocation order, mirroring Python's
heap and object identity), mutation is explicit state passing, exceptions are
`Except`/error components, and Python floats are modelled as exact rationals
(the claims only parse and compare numeric literals, never compute with them).
Inputs are assumed ASCII, matching the log files the module consumes, so
Python's Unicode-aware `\s` and `\d` coincide with the ASCII sets used here.
-/

/-- Python whitespace (the ASCII fragment of `str.strip()` / regex `\s`). -/
def isPySpace (c : Char) : Bool :=
  c == ' ' || c == '\t' || c == '\n' || c == '\r' || c == '\x0b' || c == '\x0c'

/-- Python `str.strip()` with no argument: drop whitespace from both ends. -/
def pyStrip (s : List Char) : List Char :=
  ((s.dropWhile isPySpace).reverse.dropWhile isPySpace).reverse

/-- Python `str.lstrip(chars)`: drop leading characters that belong to the
character SET `chars` (not the literal string `chars`). -/
def pyLstrip (chars : List Char) (s : List Char) : List Char :=
  s.dropWhile (fun c => chars.contains c)

/-- Worker for `re.sub('\s+', ' ', name)`: collapse every whitespace run to a
single space.  The flag records whether the previous character was whitespace. -/
def collapseWSAux : Bool → List Char → List Char
  | _, [] => []
  | inWs, c :: cs =>
    if isPySpace c then
      if inWs then collapseWSAux true cs else ' ' :: collapseWSAux true cs
    else c :: collapseWSAux false cs

/-- Name normalisation in `parse_lines`: `name_raw.strip()` followed by
`re.sub('\s+', ' ', name)`. -/
def normalizeName (nameRaw : String) : String :=
  ⟨collapseWSAux false (pyStrip nameRaw.toList)⟩

/-- Digits of a decimal numeral read as a natural number. -/
def digitsToNat (ds : List Char) : Nat :=
  ds.foldl (fun n c => n * 10 + (c.toNat - '0'.toNat)) 0

/-- Python `float(v.strip())` applied to a regex group of shape
`digits '.' digits*`, modelled exactly as the rational
`intpart + fracpart / 10 ^ fraclen`. -/
def floatOfGroup (g : String) : ℚ :=
  let l := pyStrip g.toList
  let ip := l.takeWhile Char.isDigit
  let fp := (l.drop (ip.length + 1)).takeWhile Char.isDigit
  mkRat (digitsToNat ip * 10 ^ fp.length + digitsToNat fp) (10 ^ fp.length)

/-- Match `N` repetitions of the data-column pattern `(\d+\.\d*)\s*` at the
head of `cs`, returning the captured groups and the remaining input.  The
pattern is deterministic under maximal munch: `\d`, `.` and `\s` are disjoint,
so the backtracking regex engine and this greedy scanner agree. -/
def parseDataCols : Nat → List Char → Option (List String × List Char)
  | 0, cs => some ([], cs)
  | n + 1, cs =>
    let ds := cs.takeWhile Char.isDigit
    if ds.isEmpty then none
    else
      match cs.drop ds.length with
      | '.' :: cs2 =>
        let fs := cs2.takeWhile Char.isDigit
        let rest := (cs2.drop fs.length).dropWhile isPySpace
        (parseDataCols n rest).map
          (fun gr => ((⟨ds ++ '.' :: fs⟩ : String) :: gr.1, gr.2))
      | _ => none

/-- Whether a candidate name capture can be produced by `\s*.*?`: some leading
whitespace followed by newline-free text.  Equivalently, no newline occurs
after the leading whitespace run. -/
def nameCapOk (pref : List Char) : Bool :=
  !((pref.dropWhile isPySpace).contains '\n')

/-- Scanner for `re.search(r'^(\s*.*?)' + N * r'(\d+\.\d*)\s*', line)`.
The lazy group 1 makes the regex take the shortest admissible prefix whose
suffix matches the `N` data columns; a prefix that `\s*.*?` cannot produce
(a newline after a non-space character) poisons every longer prefix as well,
so the whole match fails there. -/
def matchRowAux (n : Nat) : List Char → List Char → Option (String × List String)
  | pref, rest =>
    match parseDataCols n rest with
    | some (gs, _) => if nameCapOk pref then some ((⟨pref⟩ : String), gs) else none
    | none =>
      match rest with
      | [] => none
      | c :: rest2 => matchRowAux n (pref ++ [c]) rest2

/-- Match one line against the parser's row regex, returning the raw
name-with-indentation capture and the `N` numeric captures. -/
def matchRow (n : Nat) (line : String) : Option (String × List String) :=
  matchRowAux n [] line.toList

/-- Depth computation from `parse_lines`:
`int((len(name_raw) - len(name_raw.lstrip(ind))) / len(ind))`.
The numerator is non-negative, so `int` truncation is floor division. -/
def depthOf (ind : String) (nameRaw : String) : Nat :=
  let s := nameRaw.toList
  (s.length - (pyLstrip ind.toList s).length) / ind.length

/-- Worker counting how many times the unit `ind` literally prefixes `s`;
the fuel is an upper bound on the number of repetitions. -/
def countIndentUnitsAux (ind : List Char) : Nat → List Char → Nat
  | 0, _ => 0
  | f + 1, s =>
    if ind.isPrefixOf s && !ind.isEmpty then
      1 + countIndentUnitsAux ind f (s.drop ind.length)
    else 0

/-- Explicit count of how many times the indentation unit literally prefixes
the untrimmed capture — the reimplementation of depth that the specification
prescribes. -/
def countIndentUnits (ind : String) (s : String) : Nat :=
  countIndentUnitsAux ind.toList (s.toList.length + 1) s.toList

/-- Value stored in a row's `data` dictionary.  Construction stores floats;
`as_dict` later writes nested dictionaries into the same mapping. -/
inductive DVal where
  | num : ℚ → DVal
  | dict : List (String × DVal) → DVal

/-- One `RowData` object.  `data` is Python's `self.data` (original keys, in
dictionary insertion order); `fieldAttrs` records the attributes dynamically
assigned by `setattr(self, key.lower(), value)` during `__init__`; `parent`
and `children` hold store indices of other rows (`self._parent`,
`self._children`).  Store indices stand for Python object identity. -/
structure RowData where
  name : String
  data : List (String × DVal)
  fieldAttrs : List (String × ℚ)
  parent : Option Nat
  children : List Nat

/-- The heap of `RowData` objects, indexed by allocation order. -/
abbrev Store := List RowData

/-- Placeholder returned when an index misses the store; every operation in
the development is applied to valid indices only. -/
def dummyRow : RowData := ⟨"", [], [], none, []⟩

/-- Dereference a store index. -/
def getRow (s : Store) (r : Nat) : RowData :=
  (s : List RowData).getD r dummyRow

/-- Overwrite one row of the store. -/
def setRow (s : Store) (r : Nat) (row : RowData) : Store :=
  (s : List RowData).set r row

/-- Python exceptions raised by the module, keyed by exception class. -/
inductive PyErr where
  | valueError : String → PyErr
  | indexError : String → PyErr
  | keyError : String → PyErr
deriving DecidableEq

/-- A Python value as far as the module's dynamic checks observe it: a row
reference (`isinstance(x, RowData)` succeeds) or anything else.  The other
constructors model the results of attribute access. -/
inductive PyVal where
  | vrow : Nat → PyVal
  | vnum : ℚ → PyVal
  | vstr : String → PyVal
  | vdict : List (String × DVal) → PyVal
  | vrowList : List Nat → PyVal
  | vstrList : List String → PyVal
  | vdictRows : List (String × Nat) → PyVal
  | vnone : PyVal
  | vmethod : String → PyVal

/-- Python dict update of a single key: overwrite in place if present
(keeping its position), otherwise append. -/
def assocUpdate {α : Type} (l : List (String × α)) (k : String) (v : α) :
    List (String × α) :=
  if l.any (fun kv => kv.1 == k) then
    l.map (fun kv => if kv.1 == k then (kv.1, v) else kv)
  else l ++ [(k, v)]

/-- Python dict lookup returning an option. -/
def assocFind {α : Type} (l : List (String × α)) (k : String) : Option α :=
  (l.find? (fun kv => kv.1 == k)).map (fun kv => kv.2)

/-- The dict comprehension `{n: d for n, d in zip(names, vals)}`. -/
def zipDict (names : List String) (vals : List ℚ) : List (String × ℚ) :=
  (List.zip names vals).foldl (fun acc kv => assocUpdate acc kv.1 kv.2) []

/-- Python `str.lower()` restricted to ASCII, written over the character
list so it evaluates in the kernel. -/
def pyToLower (s : String) : String := ⟨s.toList.map Char.toLower⟩

/-- Attribute names already present on a fresh `RowData` when `__init__`
scans the field dictionary: the instance attributes set before the loop and
the class-level properties and methods.  (Inherited `__`-dunder names cannot
collide with the lower-cased field names considered here and are omitted.) -/
def reservedInitAttrNames : List String :=
  ["name", "data", "children", "child_names", "child_dict", "parent",
   "has_parent", "has_children", "get_child_depth", "get_parents",
   "add_child", "as_dict"]

/-- The `__init__` loop over `data.items()`: lower-case each key and fail on
a collision with an existing attribute, else `setattr`. -/
def setFieldAttrs (acc : List (String × ℚ)) :
    List (String × ℚ) → Except PyErr (List (String × ℚ))
  | [] => .ok acc
  | (k, v) :: rest =>
    let lk := pyToLower k
    if lk ∈ reservedInitAttrNames ∨ lk ∈ acc.map Prod.fst then
      .error (.valueError ("Cannot overwrite attribute " ++ lk ++ "."))
    else setFieldAttrs (acc ++ [(lk, v)]) rest

/-- Model of `RowData(name, **fields)`: on success the fresh object has no parent and
no children. -/
def mkRowData (name : String) (fields : List (String × ℚ)) :
    Except PyErr RowData :=
  match setFieldAttrs [] fields with
  | .error e => .error e
  | .ok attrs =>
    .ok ⟨name, fields.map (fun kv => (kv.1, DVal.num kv.2)), attrs, none, []⟩

/-- The `parent` property setter: fail if the parent was already assigned,
if the candidate is not a `RowData`, or if `self == parent.parent`
(the direct two-cycle guard); otherwise record the parent. -/
def setParent (s : Store) (r : Nat) (v : PyVal) : Except PyErr Store :=
  let row := getRow s r
  if row.parent.isSome then
    .error (.valueError "Do not set parent of RowData multiple times.")
  else
    match v with
    | .vrow p =>
      if (getRow s p).parent = some r then
        .error (.valueError "Circular relationship.")
      else .ok (setRow s r { row with parent := some p })
    | _ => .error (.valueError "Parent must be an instance of RowData.")

/-- Model of `add_child(child)`: fail if the argument is not a `RowData` or if `self`
is already among the CHILD's children (the code's guard is
`if self in child.children`, a two-cycle check, not a duplicate check);
otherwise append the child. -/
def addChild (s : Store) (r : Nat) (v : PyVal) : Except PyErr Store :=
  match v with
  | .vrow c =>
    if r ∈ (getRow s c).children then
      .error (.valueError "Circular relationship.")
    else
      let row := getRow s r
      .ok (setRow s r { row with children := row.children ++ [c] })
  | _ => .error (.valueError "Child must be an instance of RowData.")

/-- Model of `set_child_parent_relation(child, parent)`.  Python mutates the heap in
place, so a failure after the parent assignment keeps that assignment; the
result therefore carries the store reached so far together with the
exception, if any. -/
def setChildParentRelation (s : Store) (c : Nat) (p : Nat) :
    Store × Option PyErr :=
  match setParent s c (.vrow p) with
  | .error e => (s, some e)
  | .ok s1 =>
    match addChild s1 p (.vrow c) with
    | .error e => (s1, some e)
    | .ok s2 => (s2, none)

/-- Model of `child_names`: the names of the row's children, in order. -/
def childNames (s : Store) (row : RowData) : List String :=
  row.children.map (fun c => (getRow s c).name)

/-- Model of `child_dict`: the dict comprehension over children (later duplicates of a
name overwrite earlier ones). -/
def childDict (s : Store) (row : RowData) : List (String × Nat) :=
  row.children.foldl (fun acc c => assocUpdate acc (getRow s c).name c) []

/-- Attribute names present on a constructed row, as `hasattr` sees them. -/
def pyAttrNames (row : RowData) : List String :=
  reservedInitAttrNames ++ ["_parent", "_children"] ++ row.fieldAttrs.map Prod.fst

/-- Model of `getattr` on a row for a name in `pyAttrNames`; bound methods are
abstracted to `vmethod`. -/
def getattrVal (s : Store) (r : Nat) (a : String) : PyVal :=
  let row := getRow s r
  if a = "name" then .vstr row.name
  else if a = "data" then .vdict row.data
  else if a = "_parent" ∨ a = "parent" then
    match row.parent with
    | none => .vnone
    | some p => .vrow p
  else if a = "_children" ∨ a = "children" then .vrowList row.children
  else if a = "child_names" then .vstrList (childNames s row)
  else if a = "child_dict" then .vdictRows (childDict s row)
  else
    match assocFind row.fieldAttrs a with
    | some q => .vnum q
    | none => .vmethod a

/-- Model of `RowData.__getitem__`: exact attribute match, then lower-cased attribute
match, then child-name match, else `IndexError`. -/
def getitem (s : Store) (r : Nat) (key : String) : Except PyErr PyVal :=
  let row := getRow s r
  if key ∈ pyAttrNames row then .ok (getattrVal s r key)
  else if pyToLower key ∈ pyAttrNames row then .ok (getattrVal s r (pyToLower key))
  else if key ∈ childNames s row then
    match assocFind (childDict s row) key with
    | some c => .ok (.vrow c)
    | none => .error (.keyError key)
  else .error (.indexError ("No element with name " ++ key ++ " found."))

/-- Model of `get_parents(parents=[])`: climb to the parent, prepending it to the
accumulator; the `AttributeError` on `None.get_parents` returns the
accumulator.  Fuel bounds the recursion depth (Python would hit the
recursion limit on a cyclic chain). -/
def get_parents : Nat → Store → Nat → List Nat → Option (List Nat)
  | 0, _, _, _ => none
  | f + 1, s, r, parents =>
    match (getRow s r).parent with
    | none => some parents
    | some p => get_parents f s p (p :: parents)

/-- Specification-side companion of `get_parents`: the ordered path of
ancestors of a row, from the furthest root down to the immediate parent,
empty for a root.  Written from the specification's words, to be compared
with `get_parents`. -/
def ancestorPathSpec : Nat → Store → Nat → Option (List Nat)
  | 0, _, _ => none
  | f + 1, s, r =>
    match (getRow s r).parent with
    | none => some []
    | some p => (ancestorPathSpec f s p).map (fun l => l ++ [p])

/-- Model of `as_dict()`: with `d` aliasing `self.data`, update `d` with one entry per
child (the child's recursive `as_dict`), store the result back into the row
(the alias makes this a real mutation of `self.data`), and return it.
The store threads left to right through the children, and the row is re-read
after the recursion, mirroring the alias semantics. -/
def asDict : Nat → Store → Nat → Option (List (String × DVal) × Store)
  | 0, _, _ => none
  | fuel + 1, s, r =>
    let step := fun (acc : Option (List (String × DVal) × Store)) (c : Nat) =>
      acc.bind (fun es =>
        (asDict fuel es.2 c).map (fun ds =>
          (assocUpdate es.1 (getRow es.2 c).name (DVal.dict ds.1), ds.2)))
    ((getRow s r).children.foldl step (some ([], s))).map (fun es =>
      let row := getRow es.2 r
      let d := es.1.foldl (fun dd kv => assocUpdate dd kv.1 kv.2) row.data
      (d, setRow es.2 r { row with data := d }))

/-- Constructor state of `HirarchicalTableParser`: the data-column names and
the indentation unit.  The compiled regex is determined by the number of
data columns and is modelled by `matchRow`. -/
structure HirarchicalTableParser where
  data_col_names : List String
  subcategory_indention : String

/-- Mutable state of a parser object: the heap of rows and `self.rows`
(store indices, in file order). -/
structure ParseState where
  store : Store
  rows : List Nat

/-- The message of the skipped-level `ValueError`, with the offending depth
and `len(row_tree) - 1` interpolated. -/
def skipMsg (depth parentDepth : Nat) : String :=
  "A hirarchical level was skipped! Found element of depth " ++
    toString depth ++ ". However parent element is of depth " ++
    toString parentDepth ++ "."

/-- One iteration of the `parse_lines` loop on one line: skip empty and
unmatched lines; otherwise build the row, append it to `self.rows`, compute
the depth, and update the ancestor stack `row_tree` (`none` before the first
matched row), raising the skip error when the depth exceeds the stack
length.  Returns the new stack, the new parser state, and the exception if
one was raised (heap mutations up to the exception are kept). -/
def processLine (cfg : HirarchicalTableParser) (tree : Option (List Nat))
    (st : ParseState) (line : String) :
    Option (List Nat) × ParseState × Option PyErr :=
  if line = "" then (tree, st, none)
  else
    match matchRow cfg.data_col_names.length line with
    | none => (tree, st, none)
    | some (nameRaw, groups) =>
      let name := normalizeName nameRaw
      let fields := zipDict cfg.data_col_names (groups.map floatOfGroup)
      match mkRowData name fields with
      | .error e => (tree, st, some e)
      | .ok rowObj =>
        let rid := st.store.length
        let st1 : ParseState := ⟨st.store ++ [rowObj], st.rows ++ [rid]⟩
        let depth := depthOf cfg.subcategory_indention nameRaw
        match tree with
        | none => (some [rid], st1, none)
        | some t =>
          if t.length < depth then
            (some t, st1, some (.valueError (skipMsg depth (t.length - 1))))
          else
            let t2 := t.take depth
            match t2.getLast? with
            | none => (some (t2 ++ [rid]), st1, none)
            | some pid =>
              match setChildParentRelation st1.store rid pid with
              | (s2, none) => (some (t2 ++ [rid]), ⟨s2, st1.rows⟩, none)
              | (s2, some e) => (some t2, ⟨s2, st1.rows⟩, some e)

/-- The `parse_lines` loop over the remaining lines, carrying the ancestor
stack; an exception aborts the loop but keeps the state reached. -/
def parseScan (cfg : HirarchicalTableParser) (tree : Option (List Nat))
    (st : ParseState) :
    List String → Option (List Nat) × ParseState × Option PyErr
  | [] => (tree, st, none)
  | l :: ls =>
    match processLine cfg tree st l with
    | (tree1, st1, none) => parseScan cfg tree1 st1 ls
    | (tree1, st1, some e) => (tree1, st1, some e)

/-- Model of `parse_lines(lines)`: run the loop with no ancestor stack yet.  The
local `row_tree` is discarded; the parser state and the raised exception
(if any) remain observable. -/
def parseLines (cfg : HirarchicalTableParser) (st : ParseState)
    (lines : List String) : ParseState × Option PyErr :=
  let r := parseScan cfg none st lines
  (r.2.1, r.2.2)

/-- Model of `row_names`: the names of all root rows (rows without parents), in file
order. -/
def row_names (st : ParseState) : List String :=
  (st.rows.filter (fun r => (getRow st.store r).parent.isNone)).map
    (fun r => (getRow st.store r).name)

/-- The parser configuration of `get_yutiming_body_data`: data columns
`min, avg, max, total` and a two-space indentation unit. -/
def cfgC1 : HirarchicalTableParser := ⟨["min", "avg", "max", "total"], "  "⟩

/-- The two-line round-trip input of the specification. -/
def linesC1 : List String := ["Root 1.0 2.0 3.0 4.0", "  Child 0.1 0.2 0.3 0.4"]

/-- The `Root` row after parsing `linesC1` (store index 0). -/
def rowRootC1 : RowData :=
  ⟨"Root",
   [("min", .num 1), ("avg", .num 2), ("max", .num 3), ("total", .num 4)],
   [("min", 1), ("avg", 2), ("max", 3), ("total", 4)], none, [1]⟩

/-- The `Child` row after parsing `linesC1` (store index 1). -/
def rowChildC1 : RowData :=
  ⟨"Child",
   [("min", .num (mkRat 1 10)), ("avg", .num (mkRat 1 5)),
    ("max", .num (mkRat 3 10)), ("total", .num (mkRat 2 5))],
   [("min", mkRat 1 10), ("avg", mkRat 1 5), ("max", mkRat 3 10),
    ("total", mkRat 2 5)], some 0, []⟩

/-- The store produced by parsing `linesC1`. -/
def storeC1 : Store := [rowRootC1, rowChildC1]

/-- The nested dictionary `Root.as_dict()` returns on the parsed fixture:
the field mapping unioned with the recursive entry for `Child`. -/
def dRootC1 : List (String × DVal) :=
  [("min", .num 1), ("avg", .num 2), ("max", .num 3), ("total", .num 4),
   ("Child", .dict rowChildC1.data)]

/-- Single-data-column parser with a two-space indentation unit. -/
def cfgC2 : HirarchicalTableParser := ⟨["v"], "  "⟩

/-- The row parsed from `"A 1.0"`. -/
def rowAC2 : RowData := ⟨"A", [("v", .num 1)], [("v", 1)], none, []⟩

/-- The row parsed from `"    B 2.0"` (depth 2, never attached). -/
def rowBC2 : RowData := ⟨"B", [("v", .num 2)], [("v", 2)], none, []⟩

/-- Fixture for C5: row 0 already has row 1 among its children. -/
def store5 : Store :=
  [⟨"r", [], [], none, [1]⟩, ⟨"c", [], [], some 0, []⟩]

/-- Fixture for C6: two unrelated rows 0 and 1 plus a row 2 whose parent is
already 0. -/
def store6 : Store :=
  [⟨"p", [], [], none, []⟩, ⟨"c", [], [], none, []⟩, ⟨"q", [], [], some 0, []⟩]

/-- Fixture for C8: one row with a single field `min`. -/
def store8 : Store := [⟨"Row1", [("min", .num 1)], [("min", 1)], none, []⟩]

/-- All fields of every row except `data` are unchanged between two stores
(and the stores have the same extent). -/
def preservesRowShape (s s' : Store) : Prop :=
  s'.length = s.length ∧
  ∀ i, (getRow s' i).name = (getRow s i).name ∧
       (getRow s' i).fieldAttrs = (getRow s i).fieldAttrs ∧
       (getRow s' i).parent = (getRow s i).parent ∧
       (getRow s' i).children = (getRow s i).children

/-- The step function of the children fold inside `as_dict`. -/
def asDictStep (fuel : Nat)
    (acc : Option (List (String × DVal) × Store)) (c : Nat) :
    Option (List (String × DVal) × Store) :=
  acc.bind (fun es =>
    (asDict fuel es.2 c).map (fun ds =>
      (assocUpdate es.1 (getRow es.2 c).name (DVal.dict ds.1), ds.2)))

/-- The final step of `as_dict`: update the (re-read) row's own dictionary
with the collected child entries and store it back. -/
def asDictFinish (r : Nat) (es : List (String × DVal) × Store) :
    List (String × DVal) × Store :=
  let row := getRow es.2 r
  let d := es.1.foldl (fun dd kv => assocUpdate dd kv.1 kv.2) row.data
  (d, setRow es.2 r { row with data := d })

/-- Consistency of the heap: parent indices are in range, child indices are
in range, and for every in-range row `p`, each row `r` occurs in `p`'s
children exactly once when `r.parent` is `p` and never otherwise. -/
def StoreInv (s : Store) : Prop :=
  (∀ r p, r < s.length → (getRow s r).parent = some p → p < s.length) ∧
  (∀ p c, p < s.length → c ∈ (getRow s p).children → c < s.length) ∧
  (∀ p r, p < s.length →
    ((getRow s p).children).count r =
      if (getRow s r).parent = some p then 1 else 0)

/-- All indices of the ancestor stack are valid in the store. -/
def TreeOK (s : Store) : Option (List Nat) → Prop
  | none => True
  | some t => ∀ i ∈ t, i < s.length

/-! ### Store helper lemmas -/

theorem setRow_getRow (s : Store) (r : Nat) : setRow s r (getRow s r) = s := by
  induction s generalizing r with
  | nil => cases r <;> rfl
  | cons a as ih =>
    cases r with
    | zero => rfl
    | succ n =>
      show a :: setRow as n (getRow as n) = a :: as
      rw [ih]

theorem getRow_setRow_self (s : Store) (r : Nat) (row : RowData)
    (h : r < s.length) : getRow (setRow s r row) r = row := by
  induction s generalizing r with
  | nil => simp at h
  | cons a as ih =>
    cases r with
    | zero => rfl
    | succ n =>
      show getRow (setRow as n row) n = row
      exact ih n (by simpa using h)

theorem getRow_setRow_ne (s : Store) (r i : Nat) (row : RowData)
    (h : i ≠ r) : getRow (setRow s r row) i = getRow s i := by
  induction s generalizing r i with
  | nil => cases r <;> rfl
  | cons a as ih =>
    cases r with
    | zero =>
      cases i with
      | zero => exact absurd rfl h
      | succ j => rfl
    | succ n =>
      cases i with
      | zero => rfl
      | succ j =>
        show getRow (setRow as n row) j = getRow as j
        exact ih n j (fun hc => h (by rw [hc]))

theorem length_setRow (s : Store) (r : Nat) (row : RowData) :
    (setRow s r row).length = s.length := by
  simp [setRow]

theorem getRow_append_lt (s : Store) (row : RowData) (i : Nat)
    (h : i < s.length) : getRow (s ++ [row]) i = getRow s i := by
  induction s generalizing i with
  | nil => simp at h
  | cons a as ih =>
    cases i with
    | zero => rfl
    | succ j => exact ih j (by simpa using h)

theorem getRow_append_self (s : Store) (row : RowData) :
    getRow (s ++ [row]) s.length = row := by
  induction s with
  | nil => rfl
  | cons a as ih => exact ih

theorem getRow_of_length_le (s : Store) (i : Nat) (h : s.length ≤ i) :
    getRow s i = dummyRow := by
  induction s generalizing i with
  | nil => cases i <;> rfl
  | cons a as ih =>
    cases i with
    | zero => simp at h
    | succ j => exact ih j (by simpa using h)

/-! ### `as_dict` leaf behaviour -/

theorem asDict_leaf (f : Nat) (s : Store) (r : Nat)
    (h : (getRow s r).children = []) :
    asDict (f + 1) s r = some ((getRow s r).data, s) := by
  show (((getRow s r).children.foldl _ (some ([], s))).map _ :
      Option (List (String × DVal) × Store)) = _
  rw [h]
  show some (_, setRow s r { getRow s r with data := (getRow s r).data }) = _
  have he : ({ getRow s r with data := (getRow s r).data } : RowData) = getRow s r := rfl
  rw [he, setRow_getRow]
  rfl

/-! ### Concrete fixtures -/

/-- C1: parsing the two round-trip lines with the `[min, avg, max, total]` /
two-space configuration yields one root `Root` whose only child is `Child`;
`Root.as_dict()` is the field mapping unioned with the recursive `Child`
entry, so its `Child → max` entry is `0.3`; and in general `as_dict()` on a
leaf returns exactly the row's field mapping and leaves the store unchanged. -/
theorem c1_roundtrip (f : Nat) (s : Store) (r : Nat)
    (h : (getRow s r).children = []) :
    (parseLines cfgC1 ⟨[], []⟩ linesC1 = (⟨storeC1, [0, 1]⟩, none) ∧
     row_names ⟨storeC1, [0, 1]⟩ = ["Root"] ∧
     (getRow storeC1 0).name = "Root" ∧
     (getRow storeC1 0).children = [1] ∧
     (getRow storeC1 1).name = "Child" ∧
     (getRow storeC1 1).children = [] ∧
     asDict 2 storeC1 0 =
       some (dRootC1, setRow storeC1 0 { rowRootC1 with data := dRootC1 }) ∧
     assocFind dRootC1 "Child" = some (.dict rowChildC1.data) ∧
     assocFind rowChildC1.data "max" = some (.num (mkRat 3 10))) ∧
    asDict (f + 1) s r = some ((getRow s r).data, s) :=
  ⟨⟨rfl, rfl, rfl, rfl, rfl, rfl, rfl, rfl, rfl⟩, asDict_leaf f s r h⟩

/-- Witness for C1: the leaf clause applied to the parsed `Child` row. -/
theorem c1_roundtrip_witness :
    (getRow storeC1 1).children = [] ∧
    asDict 1 storeC1 1 = some ((getRow storeC1 1).data, storeC1) :=
  ⟨rfl, (c1_roundtrip 0 storeC1 1 rfl).2⟩

/-! ### Composition lemmas for the parse loop -/

theorem parseScan_ok_append (cfg : HirarchicalTableParser)
    (tr : Option (List Nat)) (st : ParseState) (xs ys : List String)
    (tr' : Option (List Nat)) (st' : ParseState)
    (h : parseScan cfg tr st xs = (tr', st', none)) :
    parseScan cfg tr st (xs ++ ys) = parseScan cfg tr' st' ys := by
  induction xs generalizing tr st with
  | nil =>
    simp only [parseScan] at h
    injection h with h1 h2
    injection h2 with h2 h3
    subst h1; subst h2
    rfl
  | cons l ls ih =>
    simp only [List.cons_append, parseScan] at h ⊢
    rcases hp : processLine cfg tr st l with ⟨tr1, st1, e⟩
    rw [hp] at h
    cases e with
    | none => exact ih tr1 st1 h
    | some e0 =>
      exfalso
      injection h with h1 h2
      injection h2 with h2 h3
      exact Option.noConfusion h3

theorem parseScan_skips (cfg : HirarchicalTableParser)
    (tr : Option (List Nat)) (st : ParseState) (xs : List String)
    (h : ∀ l ∈ xs, l = "" ∨ matchRow cfg.data_col_names.length l = none) :
    parseScan cfg tr st xs = (tr, st, none) := by
  induction xs with
  | nil => rfl
  | cons l ls ih =>
    have hl := h l (List.mem_cons_self l ls)
    have hstep : processLine cfg tr st l = (tr, st, none) := by
      by_cases h0 : l = ""
      · simp [processLine, h0]
      · rcases hl with hl | hl
        · exact absurd hl h0
        · simp only [processLine]
          rw [if_neg h0, hl]
    simp only [parseScan, hstep]
    exact ih (fun l hm => h l (List.mem_cons_of_mem _ hm))

/-- C2 (amended): for every sequence of lines, if a matched row other than
the first has computed depth strictly greater than the current ancestor
stack's length, `parse_lines` raises the fatal skip `ValueError` citing the
offending depth and the parent depth (the stack's length minus one), and at
that moment the offending row has already been appended to the parser's row
sequence and the store. -/
theorem c2_skip_error (cfg : HirarchicalTableParser) (st st1 : ParseState)
    (pre rest : List String) (line : String) (t : List Nat)
    (nr : String) (gs : List String) (rowObj : RowData)
    (hpre : parseScan cfg none st pre = (some t, st1, none))
    (hne : line ≠ "")
    (hm : matchRow cfg.data_col_names.length line = some (nr, gs))
    (hrow : mkRowData (normalizeName nr)
      (zipDict cfg.data_col_names (gs.map floatOfGroup)) = .ok rowObj)
    (hd : t.length < depthOf cfg.subcategory_indention nr) :
    parseLines cfg st (pre ++ line :: rest) =
      (⟨st1.store ++ [rowObj], st1.rows ++ [st1.store.length]⟩,
       some (.valueError (skipMsg (depthOf cfg.subcategory_indention nr)
         (t.length - 1)))) := by
  unfold parseLines
  rw [parseScan_ok_append cfg none st pre (line :: rest) (some t) st1 hpre]
  simp only [parseScan, processLine]
  rw [if_neg hne, hm]
  simp only []
  rw [hrow]
  simp only [if_pos hd]

/-- Counterexample to C2 as stated: after the depth-2 line under a stack of
length 1, the raised message interpolates the parent depth
`len(row_tree) - 1 = 0`, which differs from the message that would cite the
stack's length 1. -/
theorem c2_counterexample :
    (parseLines cfgC2 ⟨[], []⟩ ["A 1.0", "    B 2.0"]).2 =
      some (.valueError (skipMsg 2 0)) ∧
    (parseScan cfgC2 none ⟨[], []⟩ ["A 1.0"]).1 = some [0] ∧
    skipMsg 2 0 ≠ skipMsg 2 (List.length [0]) := by
  refine ⟨rfl, rfl, ?_⟩
  decide

/-- Witness for C2: the skip theorem applied to the concrete two-line input
whose second line sits at depth 2 over a stack of length 1. -/
theorem c2_skip_error_witness :
    parseLines cfgC2 ⟨[], []⟩ ["A 1.0", "    B 2.0"] =
      (⟨[rowAC2, rowBC2], [0, 1]⟩, some (.valueError (skipMsg 2 0))) :=
  c2_skip_error cfgC2 ⟨[], []⟩ ⟨[rowAC2], [0]⟩ ["A 1.0"] [] "    B 2.0" [0]
    "    B " ["2.0"] rowBC2 rfl (by decide) rfl rfl (by decide)

/-- C3: the first matched row of a `parse_lines` call (earlier lines empty
or unmatched) is accepted as a root with no depth check: the ancestor stack
becomes exactly `[row]`, the row is appended, no error is raised, and the
scan continues from that state. -/
theorem c3_first_row_root (cfg : HirarchicalTableParser) (st : ParseState)
    (pre rest : List String) (line nr : String) (gs : List String)
    (rowObj : RowData)
    (hpre : ∀ l ∈ pre, l = "" ∨ matchRow cfg.data_col_names.length l = none)
    (hne : line ≠ "")
    (hm : matchRow cfg.data_col_names.length line = some (nr, gs))
    (hrow : mkRowData (normalizeName nr)
      (zipDict cfg.data_col_names (gs.map floatOfGroup)) = .ok rowObj) :
    processLine cfg none st line =
      (some [st.store.length],
       ⟨st.store ++ [rowObj], st.rows ++ [st.store.length]⟩, none) ∧
    parseScan cfg none st (pre ++ line :: rest) =
      parseScan cfg (some [st.store.length])
        ⟨st.store ++ [rowObj], st.rows ++ [st.store.length]⟩ rest := by
  have hstep : processLine cfg none st line =
      (some [st.store.length],
       ⟨st.store ++ [rowObj], st.rows ++ [st.store.length]⟩, none) := by
    simp only [processLine]
    rw [if_neg hne, hm]
    simp only []
    rw [hrow]
  refine ⟨hstep, ?_⟩
  rw [parseScan_ok_append cfg none st pre (line :: rest) none st
    (parseScan_skips cfg none st pre hpre)]
  simp only [parseScan, hstep]

/-- Witness for C3: a first line indented at depth 3 (six spaces with a
two-space unit), preceded by an unmatched line, is still accepted as the
sole root. -/
theorem c3_first_row_root_witness :
    depthOf cfgC2.subcategory_indention "      C " = 3 ∧
    processLine cfgC2 none ⟨[], []⟩ "      C 1.0" =
      (some [0], ⟨[⟨"C", [("v", .num 1)], [("v", 1)], none, []⟩], [0]⟩, none) ∧
    parseScan cfgC2 none ⟨[], []⟩ ["x y z", "      C 1.0"] =
      parseScan cfgC2 (some [0])
        ⟨[⟨"C", [("v", .num 1)], [("v", 1)], none, []⟩], [0]⟩ [] := by
  refine ⟨by decide, ?_, ?_⟩
  · exact (c3_first_row_root cfgC2 ⟨[], []⟩ ["x y z"] [] "      C 1.0"
      "      C " ["1.0"] ⟨"C", [("v", .num 1)], [("v", 1)], none, []⟩
      (by decide) (by decide) rfl rfl).1
  · exact (c3_first_row_root cfgC2 ⟨[], []⟩ ["x y z"] [] "      C 1.0"
      "      C " ["1.0"] ⟨"C", [("v", .num 1)], [("v", 1)], none, []⟩
      (by decide) (by decide) rfl rfl).2

/-- C5 (amended): `add_child` fails exactly when the argument is not a
`RowData` or when `self` is already among the CHILD's children (the direct
two-cycle guard); re-adding an existing child is NOT rejected — it succeeds
and appends a duplicate. -/
theorem c5_add_child (s : Store) (r c : Nat) (v : PyVal) :
    (r ∉ (getRow s c).children →
      addChild s r (.vrow c) =
        .ok (setRow s r
          { getRow s r with children := (getRow s r).children ++ [c] })) ∧
    (r ∈ (getRow s c).children →
      addChild s r (.vrow c) = .error (.valueError "Circular relationship.")) ∧
    ((∀ d, v ≠ .vrow d) →
      addChild s r v =
        .error (.valueError "Child must be an instance of RowData.")) := by
  refine ⟨?_, ?_, ?_⟩
  · intro h
    simp only [addChild, if_neg h]
  · intro h
    simp only [addChild, if_pos h]
  · intro h
    cases v with
    | vrow d => exact absurd rfl (h d)
    | vnum q => rfl
    | vstr a => rfl
    | vdict a => rfl
    | vrowList a => rfl
    | vstrList a => rfl
    | vdictRows a => rfl
    | vnone => rfl
    | vmethod a => rfl

/-- Counterexample to C5 as stated: although row 1 is already a child of
row 0, `add_child` succeeds again and appends a duplicate instead of
failing. -/
theorem c5_counterexample :
    1 ∈ (getRow store5 0).children ∧
    addChild store5 0 (.vrow 1) =
      .ok [⟨"r", [], [], none, [1, 1]⟩, ⟨"c", [], [], some 0, []⟩] :=
  ⟨by decide, rfl⟩

/-- Witness for C5: the three clauses at concrete inputs — a duplicate
re-add that succeeds, a two-cycle that fails, and a non-Row argument that
fails. -/
theorem c5_add_child_witness :
    addChild store5 0 (.vrow 1) =
      .ok (setRow store5 0
        { getRow store5 0 with children := (getRow store5 0).children ++ [1] }) ∧
    addChild store5 1 (.vrow 0) = .error (.valueError "Circular relationship.") ∧
    addChild store5 0 .vnone =
      .error (.valueError "Child must be an instance of RowData.") :=
  ⟨(c5_add_child store5 0 1 .vnone).1 (by decide),
   (c5_add_child store5 1 0 .vnone).2.1 (by decide),
   (c5_add_child store5 0 1 .vnone).2.2 (fun d h => PyVal.noConfusion h)⟩

/-- C6: the `parent` setter is one-shot — it fails once a parent is set,
fails on a non-`RowData` candidate, fails on the direct two-cycle
`self == parent.parent`, and otherwise records the parent, which reads back
as the same object. -/
theorem c6_parent_once (s : Store) (r p : Nat) (v : PyVal) :
    (∀ q, (getRow s r).parent = some q →
      setParent s r v =
        .error (.valueError "Do not set parent of RowData multiple times.")) ∧
    ((getRow s r).parent = none → (getRow s p).parent ≠ some r →
      setParent s r (.vrow p) =
        .ok (setRow s r { getRow s r with parent := some p }) ∧
      (r < s.length →
        (getRow (setRow s r { getRow s r with parent := some p }) r).parent =
          some p)) ∧
    ((getRow s r).parent = none → (∀ q, v ≠ .vrow q) →
      setParent s r v =
        .error (.valueError "Parent must be an instance of RowData.")) ∧
    ((getRow s r).parent = none → (getRow s p).parent = some r →
      setParent s r (.vrow p) = .error (.valueError "Circular relationship.")) := by
  refine ⟨?_, ?_, ?_, ?_⟩
  · intro q hq
    simp only [setParent, hq, Option.isSome_some, if_pos]
  · intro h0 hcy
    constructor
    · simp only [setParent, h0, Option.isSome_none, Bool.false_eq_true,
        if_false, if_neg hcy]
    · intro hr
      rw [getRow_setRow_self s r _ hr]
  · intro h0 hv
    cases v with
    | vrow q => exact absurd rfl (hv q)
    | vnum q => simp only [setParent, h0, Option.isSome_none,
        Bool.false_eq_true, if_false]
    | vstr a => simp only [setParent, h0, Option.isSome_none,
        Bool.false_eq_true, if_false]
    | vdict a => simp only [setParent, h0, Option.isSome_none,
        Bool.false_eq_true, if_false]
    | vrowList a => simp only [setParent, h0, Option.isSome_none,
        Bool.false_eq_true, if_false]
    | vstrList a => simp only [setParent, h0, Option.isSome_none,
        Bool.false_eq_true, if_false]
    | vdictRows a => simp only [setParent, h0, Option.isSome_none,
        Bool.false_eq_true, if_false]
    | vnone => simp only [setParent, h0, Option.isSome_none,
        Bool.false_eq_true, if_false]
    | vmethod a => simp only [setParent, h0, Option.isSome_none,
        Bool.false_eq_true, if_false]
  · intro h0 hcy
    simp only [setParent, h0, Option.isSome_none, Bool.false_eq_true,
      if_false, if_pos hcy]

/-- Witness for C6: all four clauses at concrete inputs. -/
theorem c6_parent_once_witness :
    setParent store6 1 (.vrow 0) =
      .ok (setRow store6 1 { getRow store6 1 with parent := some 0 }) ∧
    (getRow (setRow store6 1 { getRow store6 1 with parent := some 0 }) 1).parent =
      some 0 ∧
    setParent store6 2 (.vrow 1) =
      .error (.valueError "Do not set parent of RowData multiple times.") ∧
    setParent store6 1 .vnone =
      .error (.valueError "Parent must be an instance of RowData.") ∧
    setParent store6 0 (.vrow 2) = .error (.valueError "Circular relationship.") :=
  ⟨((c6_parent_once store6 1 0 .vnone).2.1 rfl (by decide)).1,
   ((c6_parent_once store6 1 0 .vnone).2.1 rfl (by decide)).2 (by decide),
   (c6_parent_once store6 2 1 (.vrow 1)).1 0 rfl,
   (c6_parent_once store6 1 0 .vnone).2.2.1 rfl (fun q h => PyVal.noConfusion h),
   (c6_parent_once store6 0 2 .vnone).2.2.2 rfl rfl⟩

/-- Accumulator behaviour of `get_parents`: the result is the ancestor path
followed by whatever accumulator was passed in — the accumulator (and so the
default `[]`) is never mutated, only prepended to. -/
theorem get_parents_acc (f : Nat) (s : Store) (r : Nat) (acc : List Nat) :
    get_parents f s r acc =
      (ancestorPathSpec f s r).map (fun l => l ++ acc) := by
  induction f generalizing r acc with
  | zero => rfl
  | succ f ih =>
    cases hp : (getRow s r).parent with
    | none => simp [get_parents, ancestorPathSpec, hp]
    | some p =>
      simp only [get_parents, ancestorPathSpec, hp]
      rw [ih p (p :: acc)]
      cases ancestorPathSpec f s p with
      | none => rfl
      | some l => simp

/-- C9: `get_parents()` returns exactly the ordered path of ancestors from
the furthest root down to the immediate parent (empty for a root), and its
value depends on the accumulator argument only by appending — no state can
leak from one call into another through the default accumulator. -/
theorem c9_get_parents :
    (∀ f s r, get_parents f s r [] = ancestorPathSpec f s r) ∧
    (∀ f s r acc, get_parents f s r acc =
      (get_parents f s r []).map (fun l => l ++ acc)) := by
  constructor
  · intro f s r
    rw [get_parents_acc]
    cases ancestorPathSpec f s r with
    | none => rfl
    | some l => simp
  · intro f s r acc
    rw [get_parents_acc, get_parents_acc]
    cases ancestorPathSpec f s r with
    | none => rfl
    | some l => simp

/-! ### Association-list lemmas for Python dict semantics -/

theorem find?_map_overwrite {α : Type} (l : List (String × α))
    (k k' : String) (v : α) (h : (k' == k) = false) :
    (l.map (fun kv => if kv.1 == k then (kv.1, v) else kv)).find?
        (fun kv => kv.1 == k') =
      l.find? (fun kv => kv.1 == k') := by
  induction l with
  | nil => rfl
  | cons a tl ih =>
    by_cases ha : (a.1 == k) = true
    · have hk : a.1 = k := by simpa using ha
      have hne : k ≠ k' := fun he => by simp [he] at h
      have ha' : (a.1 == k') = false := by
        rw [hk]
        simpa using hne
      simp only [List.map_cons, ha, if_true, List.find?_cons, ha', ih]
    · have ha0 : (a.1 == k) = false := by simpa using ha
      by_cases ha' : (a.1 == k') = true
      · simp only [List.map_cons, ha0, Bool.false_eq_true, if_false,
          List.find?_cons, ha']
      · have ha1 : (a.1 == k') = false := by simpa using ha'
        simp only [List.map_cons, ha0, Bool.false_eq_true, if_false,
          List.find?_cons, ha1, ih]

theorem find?_append_assoc {α : Type} (l1 l2 : List (String × α))
    (p : String × α → Bool) :
    (l1 ++ l2).find? p = ((l1.find? p).orElse (fun _ => l2.find? p)) := by
  induction l1 with
  | nil => rfl
  | cons a tl ih =>
    by_cases ha : p a = true
    · simp [List.find?_cons, ha]
    · have ha0 : p a = false := by simpa using ha
      simp [List.find?_cons, ha0, ih]

theorem assocFind_update_self {α : Type} (l : List (String × α))
    (k : String) (v : α) : assocFind (assocUpdate l k v) k = some v := by
  unfold assocUpdate
  by_cases hany : (l.any fun kv => kv.1 == k) = true
  · rw [if_pos hany]
    unfold assocFind
    induction l with
    | nil => simp at hany
    | cons a tl ih =>
      by_cases ha : (a.1 == k) = true
      · have hk : a.1 = k := by simpa using ha
        simp [List.find?_cons, hk]
      · have ha0 : (a.1 == k) = false := by simpa using ha
        have hk : ¬ a.1 = k := by simpa using ha0
        have htl : (tl.any fun kv => kv.1 == k) = true := by
          simpa [List.any_cons, ha0] using hany
        simp only [List.map_cons, List.find?_cons]
        rw [if_neg ha]
        simp only [ha0]
        exact ih htl
  · rw [if_neg hany]
    unfold assocFind
    rw [find?_append_assoc]
    have hnone : l.find? (fun kv => kv.1 == k) = none := by
      rw [List.find?_eq_none]
      intro kv hkv
      intro hbeq
      exact hany (List.any_eq_true.mpr ⟨kv, hkv, hbeq⟩)
    simp [hnone, List.find?_cons]

theorem assocFind_update_ne {α : Type} (l : List (String × α))
    (k k' : String) (v : α) (h : (k' == k) = false) :
    assocFind (assocUpdate l k v) k' = assocFind l k' := by
  unfold assocUpdate assocFind
  by_cases hany : (l.any fun kv => kv.1 == k) = true
  · rw [if_pos hany, find?_map_overwrite l k k' v h]
  · rw [if_neg hany, find?_append_assoc]
    have hkk : (k == k') = false := by
      have : k' ≠ k := by simpa using h
      simpa using fun he => this he.symm
    cases hl : l.find? (fun kv => kv.1 == k') with
    | some a => simp [hl]
    | none => simp [hl, List.find?_cons, hkk]

theorem childDict_find_isSome_aux (s : Store) (cs : List Nat)
    (acc : List (String × Nat)) (k : String)
    (h : k ∈ cs.map (fun c => (getRow s c).name) ∨ (assocFind acc k).isSome) :
    (assocFind
      (cs.foldl (fun a c => assocUpdate a (getRow s c).name c) acc) k).isSome := by
  induction cs generalizing acc with
  | nil =>
    rcases h with h | h
    · simp at h
    · exact h
  | cons c cs ih =>
    simp only [List.foldl_cons]
    apply ih
    rcases h with h | h
    · have h' : k = (getRow s c).name ∨ k ∈ cs.map (fun c => (getRow s c).name) := by
        rw [List.map_cons] at h
        exact List.mem_cons.mp h
      rcases h' with h | h
      · right
        rw [h, assocFind_update_self]
        rfl
      · exact Or.inl h
    · right
      by_cases hk : (k == (getRow s c).name) = true
      · have hk' : k = (getRow s c).name := by simpa using hk
        rw [← hk', assocFind_update_self]
        rfl
      · have hk0 : (k == (getRow s c).name) = false := by simpa using hk
        rw [assocFind_update_ne _ _ _ _ hk0]
        exact h

/-- C8: `__getitem__` on a row whose attribute names are lower-case (as
construction guarantees) matches the row's own attributes
case-insensitively first, then falls back to the child names, and otherwise
fails with the dedicated `IndexError` not-found signal, distinct from the
`ValueError` relationship/construction errors. -/
theorem c8_lookup (s : Store) (r : Nat) (key : String)
    (hlow : ∀ a ∈ pyAttrNames (getRow s r), pyToLower a = a) :
    (pyToLower key ∈ pyAttrNames (getRow s r) →
      getitem s r key = .ok (getattrVal s r (pyToLower key))) ∧
    (pyToLower key ∉ pyAttrNames (getRow s r) →
      key ∈ childNames s (getRow s r) →
      ∃ c, assocFind (childDict s (getRow s r)) key = some c ∧
        getitem s r key = .ok (.vrow c)) ∧
    (pyToLower key ∉ pyAttrNames (getRow s r) →
      key ∉ childNames s (getRow s r) →
      getitem s r key =
        .error (.indexError ("No element with name " ++ key ++ " found."))) ∧
    (∀ m m', PyErr.indexError m ≠ PyErr.valueError m' ∧
      PyErr.indexError m ≠ PyErr.keyError m') := by
  refine ⟨?_, ?_, ?_, fun m m' =>
    ⟨fun h => PyErr.noConfusion h, fun h => PyErr.noConfusion h⟩⟩
  · intro hmem
    unfold getitem
    by_cases hk : key ∈ pyAttrNames (getRow s r)
    · rw [if_pos hk]
      have he : pyToLower key = key := hlow key hk
      rw [he]
    · rw [if_neg hk, if_pos hmem]
  · intro hnot hchild
    have hk : key ∉ pyAttrNames (getRow s r) := fun hk =>
      hnot (by rw [hlow key hk]; exact hk)
    unfold getitem
    rw [if_neg hk, if_neg hnot, if_pos hchild]
    have hsome := childDict_find_isSome_aux s (getRow s r).children [] key
      (Or.inl (by simpa [childNames] using hchild))
    have hsome' : (assocFind (childDict s (getRow s r)) key).isSome := by
      rw [childDict]
      exact hsome
    obtain ⟨c, hc⟩ := Option.isSome_iff_exists.mp hsome'
    refine ⟨c, hc, ?_⟩
    rw [hc]
  · intro hnot hchild
    have hk : key ∉ pyAttrNames (getRow s r) := fun hk =>
      hnot (by rw [hlow key hk]; exact hk)
    unfold getitem
    rw [if_neg hk, if_neg hnot, if_neg hchild]

/-- Witness for C8: the lookup theorem at the concrete row and the key
`"MIN"`, which case-insensitively hits the `min` field attribute. -/
theorem c8_lookup_witness :
    (pyToLower "MIN" ∈ pyAttrNames (getRow store8 0) →
      getitem store8 0 "MIN" = .ok (getattrVal store8 0 (pyToLower "MIN"))) ∧
    (pyToLower "MIN" ∉ pyAttrNames (getRow store8 0) →
      "MIN" ∈ childNames store8 (getRow store8 0) →
      ∃ c, assocFind (childDict store8 (getRow store8 0)) "MIN" = some c ∧
        getitem store8 0 "MIN" = .ok (.vrow c)) ∧
    (pyToLower "MIN" ∉ pyAttrNames (getRow store8 0) →
      "MIN" ∉ childNames store8 (getRow store8 0) →
      getitem store8 0 "MIN" =
        .error (.indexError ("No element with name " ++ "MIN" ++ " found."))) ∧
    (∀ m m', PyErr.indexError m ≠ PyErr.valueError m' ∧
      PyErr.indexError m ≠ PyErr.keyError m') :=
  c8_lookup store8 0 "MIN" (by decide)

/-! ### Depth arithmetic versus literal unit counting (C7) -/

theorem contains_replicate (n : Nat) (c x : Char) (hn : 0 < n) :
    (List.replicate n c).contains x = (x == c) := by
  have hbd : (x == c) = decide (x = c) := by
    by_cases h : x = c
    · subst h
      simp
    · simp [h]
  cases n with
  | zero => omega
  | succ m =>
    rw [List.replicate_succ, List.contains_cons, hbd]
    by_cases h : x = c
    · simp [h]
    · simp only [hbd] at *
      simp [h]

theorem dropWhile_congrP {α : Type} (p q : α → Bool) (l : List α)
    (h : ∀ x, p x = q x) : l.dropWhile p = l.dropWhile q := by
  induction l with
  | nil => rfl
  | cons a t ih => simp [List.dropWhile_cons, h a, ih]

theorem length_sub_dropWhile {α : Type} (p : α → Bool) (l : List α) :
    l.length - (l.dropWhile p).length = (l.takeWhile p).length := by
  have h : l.takeWhile p ++ l.dropWhile p = l :=
    List.takeWhile_append_dropWhile p l
  have h2 := congrArg List.length h
  rw [List.length_append] at h2
  omega

theorem rep_isPrefixOf_iff (n : Nat) (c : Char) (l : List Char) :
    (List.replicate n c).isPrefixOf l = true ↔
      n ≤ (l.takeWhile (fun x => x == c)).length := by
  induction n generalizing l with
  | zero => simp [List.isPrefixOf]
  | succ m ih =>
    cases l with
    | nil => simp [List.replicate_succ, List.isPrefixOf]
    | cons a t =>
      rw [List.replicate_succ]
      show (c == a && (List.replicate m c).isPrefixOf t) = true ↔ _
      by_cases ha : (a == c) = true
      · have hac : a = c := by simpa using ha
        subst hac
        simp [List.takeWhile_cons, ih, Nat.succ_le_succ_iff]
      · have ha0 : (a == c) = false := by simpa using ha
        have hne : ¬ a = c := by simpa using ha0
        have hca : (c == a) = false := by
          simpa using fun he => hne he.symm
        simp [List.takeWhile_cons, ha0, hca]

theorem takeWhile_rep_append (m : Nat) (c : Char) (t : List Char) :
    (List.replicate m c ++ t).takeWhile (fun x => x == c) =
      List.replicate m c ++ t.takeWhile (fun x => x == c) := by
  induction m with
  | zero => simp
  | succ k ih => simp [List.replicate_succ, List.takeWhile_cons, ih]

theorem countIndentUnitsAux_rep (n : Nat) (c : Char) (hn : 0 < n) :
    ∀ f l, l.length < f →
      countIndentUnitsAux (List.replicate n c) f l =
        (l.takeWhile (fun x => x == c)).length / n := by
  intro f
  induction f with
  | zero => intro l hl; omega
  | succ f ih =>
    intro l hl
    have hne : (List.replicate n c).isEmpty = false := by
      cases n with
      | zero => omega
      | succ k => rfl
    by_cases hp : (List.replicate n c).isPrefixOf l = true
    · obtain ⟨t, ht⟩ : ∃ t, List.replicate n c ++ t = l := by
        have := List.isPrefixOf_iff_prefix.mp hp
        exact this
      subst ht
      rw [countIndentUnitsAux]
      rw [hp, hne]
      simp only [Bool.not_false, Bool.and_true, if_true]
      rw [List.length_replicate, List.drop_left' (by rw [List.length_replicate])]
      have hlen : t.length < f := by
        have := List.length_append (List.replicate n c) t
        rw [List.length_replicate] at this
        omega
      rw [ih t hlen, takeWhile_rep_append, List.length_append,
        List.length_replicate]
      rw [Nat.add_comm n, Nat.add_div_right _ hn]
      omega
    · have hp0 : (List.replicate n c).isPrefixOf l = false := by
        cases hb : (List.replicate n c).isPrefixOf l with
        | true => exact absurd hb hp
        | false => rfl
      rw [countIndentUnitsAux, hp0]
      simp only [Bool.false_and, Bool.false_eq_true, if_false]
      have hlt : (l.takeWhile (fun x => x == c)).length < n := by
        by_contra hge
        exact hp ((rep_isPrefixOf_iff n c l).mpr (by omega))
      exact (Nat.div_eq_of_lt hlt).symm

/-- C7 (amended): when the indentation unit is a nonempty repetition of a
single character (as in every configuration the module uses — a tab or two
spaces), the depth computed by length arithmetic over Python's
character-set `lstrip` equals the count of literal unit repetitions
prefixing the untrimmed capture; for general multi-character units the two
disagree (see the counterexample). -/
theorem c7_depth_count (c : Char) (n : Nat) (s : String) (hn : 0 < n) :
    depthOf ⟨List.replicate n c⟩ s = countIndentUnits ⟨List.replicate n c⟩ s := by
  show (s.toList.length - (pyLstrip (List.replicate n c) s.toList).length) /
      (List.replicate n c).length =
    countIndentUnitsAux (List.replicate n c) (s.toList.length + 1) s.toList
  rw [List.length_replicate]
  rw [countIndentUnitsAux_rep n c hn (s.toList.length + 1) s.toList (by omega)]
  have hdrop : pyLstrip (List.replicate n c) s.toList =
      s.toList.dropWhile (fun x => x == c) := by
    unfold pyLstrip
    exact dropWhile_congrP _ _ _ (fun x => contains_replicate n c x hn)
  rw [hdrop, length_sub_dropWhile]

/-- Counterexample to C7 as stated: with the two-character unit `"ab"`, the
line `"aab 1.0"` matches with raw capture `"aab "`; the length arithmetic
(`lstrip` strips by character set) gives depth 1 while the literal prefix
count is 0. -/
theorem c7_counterexample :
    matchRow 1 "aab 1.0" = some ("aab ", ["1.0"]) ∧
    depthOf "ab" "aab " = 1 ∧ countIndentUnits "ab" "aab " = 0 := by
  refine ⟨rfl, by decide, by decide⟩

/-- Witness for C7: the amended theorem at the two-space unit and a raw
capture carrying three leading spaces (depth 1 both ways). -/
theorem c7_depth_count_witness :
    0 < 2 ∧ depthOf ⟨List.replicate 2 ' '⟩ "   X " =
      countIndentUnits ⟨List.replicate 2 ' '⟩ "   X " :=
  ⟨by decide, c7_depth_count ' ' 2 "   X " (by decide)⟩

/-! ### Frame analysis of `as_dict` (C4) -/

theorem preservesRowShape_trans (s1 s2 s3 : Store)
    (h1 : preservesRowShape s1 s2) (h2 : preservesRowShape s2 s3) :
    preservesRowShape s1 s3 := by
  refine ⟨h2.1.trans h1.1, fun i => ?_⟩
  obtain ⟨a1, b1, c1, d1⟩ := h1.2 i
  obtain ⟨a2, b2, c2, d2⟩ := h2.2 i
  exact ⟨a2.trans a1, b2.trans b1, c2.trans c1, d2.trans d1⟩

theorem setRow_of_length_le (s : Store) (r : Nat) (row : RowData)
    (h : s.length ≤ r) : setRow s r row = s := by
  induction s generalizing r with
  | nil => cases r <;> rfl
  | cons a as ih =>
    cases r with
    | zero => simp at h
    | succ n =>
      show a :: setRow as n row = a :: as
      rw [ih n (by simpa using h)]

theorem preservesRowShape_setData (s : Store) (r : Nat)
    (d : List (String × DVal)) :
    preservesRowShape s (setRow s r { getRow s r with data := d }) := by
  refine ⟨length_setRow s r _, fun i => ?_⟩
  by_cases hi : i = r
  · subst hi
    by_cases hr : i < s.length
    · rw [getRow_setRow_self s i _ hr]
      exact ⟨rfl, rfl, rfl, rfl⟩
    · rw [setRow_of_length_le s i _ (by omega)]
      exact ⟨rfl, rfl, rfl, rfl⟩
  · rw [getRow_setRow_ne s r i _ hi]
    exact ⟨rfl, rfl, rfl, rfl⟩

theorem asDict_succ (fuel : Nat) (s : Store) (r : Nat) :
    asDict (fuel + 1) s r =
      ((getRow s r).children.foldl (asDictStep fuel) (some ([], s))).map
        (asDictFinish r) := rfl

theorem asDictStep_foldl_none (fuel : Nat) (cs : List Nat) :
    cs.foldl (asDictStep fuel) none = none := by
  induction cs with
  | nil => rfl
  | cons c cs ih =>
    rw [List.foldl_cons]
    exact ih

theorem asDictFold_shape (fuel : Nat)
    (hgo : ∀ s r res, asDict fuel s r = some res → preservesRowShape s res.2)
    (cs : List Nat) :
    ∀ acc res, cs.foldl (asDictStep fuel) (some acc) = some res →
      preservesRowShape acc.2 res.2 := by
  induction cs with
  | nil =>
    intro acc res h
    injection h with h1
    subst h1
    exact ⟨rfl, fun i => ⟨rfl, rfl, rfl, rfl⟩⟩
  | cons c cs ih =>
    intro acc res h
    rw [List.foldl_cons] at h
    cases hg : asDict fuel acc.2 c with
    | none =>
      rw [show asDictStep fuel (some acc) c = none by
        simp [asDictStep, hg]] at h
      rw [asDictStep_foldl_none] at h
      exact absurd h (by simp)
    | some ds =>
      rw [show asDictStep fuel (some acc) c =
          some (assocUpdate acc.1 (getRow acc.2 c).name (DVal.dict ds.1), ds.2)
        by simp [asDictStep, hg]] at h
      exact preservesRowShape_trans _ _ _ (hgo _ _ _ hg)
        (ih (assocUpdate acc.1 (getRow acc.2 c).name (DVal.dict ds.1), ds.2)
          res h)

theorem asDict_shape (fuel : Nat) :
    ∀ (s : Store) (r : Nat) (res : List (String × DVal) × Store),
      asDict fuel s r = some res →
        preservesRowShape s res.2 ∧ (getRow res.2 r).data = res.1 := by
  induction fuel with
  | zero =>
    intro s r res h
    exact absurd h (by simp [asDict])
  | succ f ih =>
    intro s r res h
    rw [asDict_succ] at h
    cases hfold : (getRow s r).children.foldl (asDictStep f) (some ([], s)) with
    | none =>
      rw [hfold] at h
      exact absurd h (by simp)
    | some es =>
      rw [hfold] at h
      simp only [Option.map_some', Option.some.injEq] at h
      have hpres1 : preservesRowShape s es.2 :=
        asDictFold_shape f (fun s r res hh => (ih s r res hh).1) _ _ _ hfold
      subst h
      refine ⟨preservesRowShape_trans _ _ _ hpres1
        (preservesRowShape_setData es.2 r _), ?_⟩
      show (getRow (setRow es.2 r _) r).data = _
      by_cases hr : r < es.2.length
      · rw [getRow_setRow_self es.2 r _ hr]
        rfl
      · rw [setRow_of_length_le es.2 r _ (by omega)]
        have hrs : s.length ≤ r := by
          have := hpres1.1
          omega
        have hchil : (getRow s r).children = [] := by
          rw [getRow_of_length_le s r hrs]
          rfl
        rw [hchil] at hfold
        injection hfold with hes
        rw [← hes]
        rfl

/-- C4 (amended): `as_dict()` leaves every row's name, field attributes,
parent and children untouched and leaves a LEAF's field mapping (and the
whole store) unchanged, but it stores its computed dictionary back into the
called row's `data`.  On an internal node the field mapping therefore gains
one entry per child (see the counterexample), contradicting the claim that
rows are never mutated after parsing. -/
theorem c4_as_dict_frame (f : Nat) (s : Store) (r : Nat)
    (d : List (String × DVal)) (s' : Store)
    (h : asDict f s r = some (d, s')) :
    (∀ i, (getRow s' i).name = (getRow s i).name ∧
          (getRow s' i).fieldAttrs = (getRow s i).fieldAttrs ∧
          (getRow s' i).parent = (getRow s i).parent ∧
          (getRow s' i).children = (getRow s i).children) ∧
    (getRow s' r).data = d ∧
    ((getRow s r).children = [] → s' = s ∧ d = (getRow s r).data) := by
  have hs := asDict_shape f s r (d, s') h
  refine ⟨hs.1.2, hs.2, ?_⟩
  intro hleaf
  cases f with
  | zero => exact absurd h (by simp [asDict])
  | succ f0 =>
    rw [asDict_leaf f0 s r hleaf] at h
    injection h with h1
    have h2 := Prod.mk.injEq _ _ _ _ ▸ h1
    exact ⟨(congrArg Prod.snd h1).symm, (congrArg Prod.fst h1).symm⟩

/-- Counterexample to C4 as stated: on the parsed two-row fixture,
`Root.as_dict()` adds a `"Child"` entry to `Root`'s own field mapping — the
row is mutated by the call. -/
theorem c4_counterexample :
    ((asDict 2 storeC1 0).map (fun p => ((getRow p.2 0).data).map Prod.fst)) =
      some ["min", "avg", "max", "total", "Child"] ∧
    ((getRow storeC1 0).data).map Prod.fst = ["min", "avg", "max", "total"] :=
  ⟨rfl, rfl⟩

/-- Witness for C4: the frame theorem applied to the leaf row `Child` of the
parsed fixture. -/
theorem c4_as_dict_frame_witness :
    (∀ i, (getRow storeC1 i).name = (getRow storeC1 i).name ∧
          (getRow storeC1 i).fieldAttrs = (getRow storeC1 i).fieldAttrs ∧
          (getRow storeC1 i).parent = (getRow storeC1 i).parent ∧
          (getRow storeC1 i).children = (getRow storeC1 i).children) ∧
    (getRow storeC1 1).data = rowChildC1.data ∧
    ((getRow storeC1 1).children = [] →
      storeC1 = storeC1 ∧ rowChildC1.data = (getRow storeC1 1).data) :=
  c4_as_dict_frame 1 storeC1 1 rowChildC1.data storeC1 rfl

/-! ### Parent/child consistency invariant (C10) -/

theorem storeInv_nil : StoreInv [] := by
  refine ⟨?_, ?_, ?_⟩
  · intro r p hr
    simp at hr
  · intro p c hp
    simp at hp
  · intro p r hp
    simp at hp

theorem mkRowData_fresh (n : String) (fl : List (String × ℚ)) (row : RowData)
    (h : mkRowData n fl = .ok row) : row.parent = none ∧ row.children = [] := by
  unfold mkRowData at h
  cases hsf : setFieldAttrs [] fl with
  | error e =>
    rw [hsf] at h
    exact absurd h (by simp)
  | ok attrs =>
    rw [hsf] at h
    injection h with h1
    rw [← h1]
    exact ⟨rfl, rfl⟩

theorem storeInv_append (s : Store) (row : RowData)
    (hinv : StoreInv s) (hp : row.parent = none) (hc : row.children = []) :
    StoreInv (s ++ [row]) := by
  obtain ⟨h1, h2, h3⟩ := hinv
  have hlen : (s ++ [row]).length = s.length + 1 := by simp
  refine ⟨?_, ?_, ?_⟩
  · intro r p hr hpar
    rw [hlen] at hr ⊢
    by_cases hr' : r < s.length
    · rw [getRow_append_lt s row r hr'] at hpar
      have := h1 r p hr' hpar
      omega
    · have hre : r = s.length := by omega
      subst hre
      rw [getRow_append_self, hp] at hpar
      exact absurd hpar (by simp)
  · intro p c hp' hcm
    rw [hlen] at hp' ⊢
    by_cases hp2 : p < s.length
    · rw [getRow_append_lt s row p hp2] at hcm
      have := h2 p c hp2 hcm
      omega
    · have hpe : p = s.length := by omega
      subst hpe
      rw [getRow_append_self, hc] at hcm
      simp at hcm
  · intro p r hp'
    rw [hlen] at hp'
    by_cases hp2 : p < s.length
    · rw [getRow_append_lt s row p hp2]
      by_cases hr : r < s.length
      · rw [getRow_append_lt s row r hr]
        exact h3 p r hp2
      · have hcnt : ((getRow s p).children).count r = 0 :=
          List.count_eq_zero.mpr (fun hm => by have := h2 p r hp2 hm; omega)
        rw [hcnt]
        by_cases hr2 : r = s.length
        · subst hr2
          rw [getRow_append_self, hp]
          simp
        · rw [getRow_of_length_le (s ++ [row]) r (by rw [hlen]; omega)]
          simp [dummyRow]
    · have hpe : p = s.length := by omega
      subst hpe
      rw [getRow_append_self, hc]
      by_cases hr : r < s.length
      · rw [getRow_append_lt s row r hr]
        rw [if_neg (fun hpar => by have := h1 r _ hr hpar; omega)]
        simp
      · by_cases hr2 : r = s.length
        · subst hr2
          rw [getRow_append_self, hp]
          simp
        · rw [getRow_of_length_le (s ++ [row]) r (by rw [hlen]; omega)]
          simp [dummyRow]

theorem mem_of_getLast_eq (l : List Nat) (a : Nat)
    (h : l.getLast? = some a) : a ∈ l := by
  induction l with
  | nil => exact absurd h (by simp)
  | cons b t ih =>
    cases t with
    | nil =>
      have h1 : b = a := by simpa using h
      rw [← h1]
      exact List.mem_singleton_self b
    | cons c t2 =>
      rw [List.getLast?_cons_cons] at h
      exact List.mem_cons_of_mem b (ih h)

theorem attach_inv (s : Store) (row : RowData) (pid : Nat)
    (hinv : StoreInv s) (hp : pid < s.length)
    (hrp : row.parent = none) (hrc : row.children = []) :
    setChildParentRelation (s ++ [row]) s.length pid =
      (setRow (setRow (s ++ [row]) s.length
        ⟨row.name, row.data, row.fieldAttrs, some pid, row.children⟩) pid
        ⟨(getRow s pid).name, (getRow s pid).data, (getRow s pid).fieldAttrs,
         (getRow s pid).parent, (getRow s pid).children ++ [s.length]⟩, none) ∧
    StoreInv (setRow (setRow (s ++ [row]) s.length
      ⟨row.name, row.data, row.fieldAttrs, some pid, row.children⟩) pid
      ⟨(getRow s pid).name, (getRow s pid).data, (getRow s pid).fieldAttrs,
       (getRow s pid).parent, (getRow s pid).children ++ [s.length]⟩) := by
  obtain ⟨h1, h2, h3⟩ := hinv
  have hne : pid ≠ s.length := by omega
  have hlen0 : (s ++ [row]).length = s.length + 1 := by simp
  have hrow0 : getRow (s ++ [row]) s.length = row := getRow_append_self s row
  have hpid0 : getRow (s ++ [row]) pid = getRow s pid := getRow_append_lt s row pid hp
  have hpar_ne : ¬ (getRow (s ++ [row]) pid).parent = some s.length := by
    rw [hpid0]
    intro he
    cases hq : (getRow s pid).parent with
    | none => rw [hq] at he; exact Option.noConfusion he
    | some q =>
      rw [hq] at he
      injection he with he1
      have := h1 pid q hp hq
      omega
  have hsp : setParent (s ++ [row]) s.length (.vrow pid) =
      .ok (setRow (s ++ [row]) s.length
        ⟨row.name, row.data, row.fieldAttrs, some pid, row.children⟩) := by
    simp only [setParent, hrow0, hrp, Option.isSome_none, Bool.false_eq_true,
      if_false, if_neg hpar_ne]
  have hlen1 : (setRow (s ++ [row]) s.length
      ⟨row.name, row.data, row.fieldAttrs, some pid, row.children⟩).length =
      s.length + 1 := by
    rw [length_setRow, hlen0]
  have hrow1 : getRow (setRow (s ++ [row]) s.length
        ⟨row.name, row.data, row.fieldAttrs, some pid, row.children⟩) s.length =
      ⟨row.name, row.data, row.fieldAttrs, some pid, row.children⟩ :=
    getRow_setRow_self _ _ _ (by omega)
  have hrow1pid : getRow (setRow (s ++ [row]) s.length
        ⟨row.name, row.data, row.fieldAttrs, some pid, row.children⟩) pid =
      getRow s pid := by
    rw [getRow_setRow_ne _ _ _ _ hne, hpid0]
  have hac : addChild (setRow (s ++ [row]) s.length
        ⟨row.name, row.data, row.fieldAttrs, some pid, row.children⟩)
        pid (.vrow s.length) =
      .ok (setRow (setRow (s ++ [row]) s.length
        ⟨row.name, row.data, row.fieldAttrs, some pid, row.children⟩) pid
        ⟨(getRow s pid).name, (getRow s pid).data, (getRow s pid).fieldAttrs,
         (getRow s pid).parent, (getRow s pid).children ++ [s.length]⟩) := by
    simp only [addChild, hrow1, hrow1pid]
    rw [if_neg]
    intro hm
    have hm2 : pid ∈ row.children := hm
    rw [hrc] at hm2
    simp at hm2
  refine ⟨by simp only [setChildParentRelation, hsp, hac], ?_⟩
  have hlen2 : (setRow (setRow (s ++ [row]) s.length
        ⟨row.name, row.data, row.fieldAttrs, some pid, row.children⟩) pid
      ⟨(getRow s pid).name, (getRow s pid).data, (getRow s pid).fieldAttrs,
       (getRow s pid).parent, (getRow s pid).children ++ [s.length]⟩).length =
      s.length + 1 := by
    rw [length_setRow, hlen1]
  have hg_pid : getRow (setRow (setRow (s ++ [row]) s.length
        ⟨row.name, row.data, row.fieldAttrs, some pid, row.children⟩) pid
      ⟨(getRow s pid).name, (getRow s pid).data, (getRow s pid).fieldAttrs,
       (getRow s pid).parent, (getRow s pid).children ++ [s.length]⟩) pid =
      ⟨(getRow s pid).name, (getRow s pid).data, (getRow s pid).fieldAttrs,
       (getRow s pid).parent, (getRow s pid).children ++ [s.length]⟩ :=
    getRow_setRow_self _ _ _ (by omega)
  have hg_rid : getRow (setRow (setRow (s ++ [row]) s.length
        ⟨row.name, row.data, row.fieldAttrs, some pid, row.children⟩) pid
      ⟨(getRow s pid).name, (getRow s pid).data, (getRow s pid).fieldAttrs,
       (getRow s pid).parent, (getRow s pid).children ++ [s.length]⟩) s.length =
      ⟨row.name, row.data, row.fieldAttrs, some pid, row.children⟩ := by
    rw [getRow_setRow_ne _ _ _ _ (fun he => hne he.symm)]
    exact hrow1
  have hg_other : ∀ i, i ≠ pid → i ≠ s.length →
      getRow (setRow (setRow (s ++ [row]) s.length
        ⟨row.name, row.data, row.fieldAttrs, some pid, row.children⟩) pid
      ⟨(getRow s pid).name, (getRow s pid).data, (getRow s pid).fieldAttrs,
       (getRow s pid).parent, (getRow s pid).children ++ [s.length]⟩) i =
      getRow s i := by
    intro i hip hil
    rw [getRow_setRow_ne _ _ _ _ hip, getRow_setRow_ne _ _ _ _ hil]
    by_cases hlt : i < s.length
    · exact getRow_append_lt s row i hlt
    · rw [getRow_of_length_le (s ++ [row]) i (by omega),
        getRow_of_length_le s i (by omega)]
  have hpar_out : ∀ r, ¬ r < s.length → ¬ (getRow s r).parent = some s.length := by
    intro r hr he
    rw [getRow_of_length_le s r (by omega)] at he
    exact Option.noConfusion he
  have hpar_in : ∀ r, r < s.length → ¬ (getRow s r).parent = some s.length := by
    intro r hr he
    have := h1 r s.length hr he
    omega
  refine ⟨?_, ?_, ?_⟩
  · intro r q hr hpar
    rw [hlen2] at hr ⊢
    by_cases hrl : r = s.length
    · subst hrl
      rw [hg_rid] at hpar
      injection hpar with hq
      omega
    · by_cases hrpid : pid = r
      · subst hrpid
        rw [hg_pid] at hpar
        have hpar2 : (getRow s pid).parent = some q := hpar
        have := h1 pid q hp hpar2
        omega
      · rw [hg_other r (fun he => hrpid he.symm) hrl] at hpar
        by_cases hr2 : r < s.length
        · have := h1 r q hr2 hpar
          omega
        · rw [getRow_of_length_le s r (by omega)] at hpar
          exact absurd hpar (by simp [dummyRow])
  · intro q c hq' hcm
    rw [hlen2] at hq' ⊢
    by_cases hqpid : pid = q
    · subst hqpid
      rw [hg_pid] at hcm
      have hcm2 : c ∈ (getRow s pid).children ++ [s.length] := hcm
      rcases List.mem_append.mp hcm2 with hm | hm
      · have := h2 pid c hp hm
        omega
      · have hc : c = s.length := by simpa using hm
        omega
    · by_cases hql : q = s.length
      · subst hql
        rw [hg_rid] at hcm
        have hcm2 : c ∈ row.children := hcm
        rw [hrc] at hcm2
        simp at hcm2
      · rw [hg_other q (fun he => hqpid he.symm) hql] at hcm
        by_cases hq2 : q < s.length
        · have := h2 q c hq2 hcm
          omega
        · rw [getRow_of_length_le s q (by omega)] at hcm
          simp [dummyRow] at hcm
  · intro q r hq'
    rw [hlen2] at hq'
    by_cases hqpid : pid = q
    · subst hqpid
      rw [hg_pid]
      show ((getRow s pid).children ++ [s.length]).count r = _
      rw [List.count_append]
      by_cases hrl : r = s.length
      · subst hrl
        rw [hg_rid]
        have hz : ((getRow s pid).children).count s.length = 0 :=
          List.count_eq_zero.mpr (fun hm => by have := h2 pid s.length hp hm; omega)
        rw [hz]
        show 0 + List.count s.length [s.length] =
          if some pid = some pid then 1 else 0
        rw [if_pos rfl]
        simp
      · have h1s : List.count r [s.length] = 0 := by
          simp [hrl]
        rw [h1s, Nat.add_zero]
        by_cases hrpid : pid = r
        · subst hrpid
          rw [hg_pid]
          show ((getRow s pid).children).count pid =
            if (getRow s pid).parent = some pid then 1 else 0
          exact h3 pid pid hp
        · rw [hg_other r (fun he => hrpid he.symm) hrl]
          exact h3 pid r hp
    · by_cases hql : q = s.length
      · subst hql
        rw [hg_rid]
        show (row.children).count r = _
        have hcz : (row.children).count r = 0 := by
          rw [hrc]
          simp
        rw [hcz]
        by_cases hrl : r = s.length
        · subst hrl
          rw [hg_rid]
          show 0 = if some pid = some s.length then 1 else 0
          rw [if_neg (fun he => hne (by injection he))]
        · by_cases hrpid : pid = r
          · subst hrpid
            rw [hg_pid]
            show 0 = if (getRow s pid).parent = some s.length then 1 else 0
            rw [if_neg (hpar_in pid hp)]
          · rw [hg_other r (fun he => hrpid he.symm) hrl]
            by_cases hr2 : r < s.length
            · rw [if_neg (hpar_in r hr2)]
            · rw [if_neg (hpar_out r hr2)]
      · have hq2 : q < s.length := by omega
        rw [hg_other q (fun he => hqpid he.symm) hql]
        by_cases hrl : r = s.length
        · subst hrl
          rw [hg_rid]
          have hz : ((getRow s q).children).count s.length = 0 :=
            List.count_eq_zero.mpr (fun hm => by have := h2 q s.length hq2 hm; omega)
          rw [hz]
          show 0 = if some pid = some q then 1 else 0
          rw [if_neg (fun he => hqpid (by injection he))]
        · by_cases hrpid : pid = r
          · subst hrpid
            rw [hg_pid]
            show ((getRow s q).children).count pid =
              if (getRow s pid).parent = some q then 1 else 0
            exact h3 q pid hq2
          · rw [hg_other r (fun he => hrpid he.symm) hrl]
            exact h3 q r hq2

theorem processLine_inv (cfg : HirarchicalTableParser) (tree : Option (List Nat))
    (st : ParseState) (line : String) (tree' : Option (List Nat))
    (st' : ParseState)
    (hinv : StoreInv st.store) (htree : TreeOK st.store tree)
    (h : processLine cfg tree st line = (tree', st', none)) :
    StoreInv st'.store ∧ TreeOK st'.store tree' := by
  unfold processLine at h
  by_cases h0 : line = ""
  · rw [if_pos h0] at h
    injection h with h1 h2
    injection h2 with h2 h3
    subst h1
    subst h2
    exact ⟨hinv, htree⟩
  · rw [if_neg h0] at h
    cases hm : matchRow cfg.data_col_names.length line with
    | none =>
      simp only [hm] at h
      injection h with h1 h2
      injection h2 with h2 h3
      subst h1
      subst h2
      exact ⟨hinv, htree⟩
    | some g =>
      simp only [hm] at h
      cases hr : mkRowData (normalizeName g.1)
          (zipDict cfg.data_col_names (g.2.map floatOfGroup)) with
      | error e =>
        simp only [hr] at h
        injection h with h1 h2
        injection h2 with h2 h3
        exact absurd h3 (by simp)
      | ok rowObj =>
        simp only [hr] at h
        obtain ⟨hpar0, hchil0⟩ := mkRowData_fresh _ _ _ hr
        have hinv1 : StoreInv (st.store ++ [rowObj]) :=
          storeInv_append st.store rowObj hinv hpar0 hchil0
        cases tree with
        | none =>
          injection h with h1 h2
          injection h2 with h2 h3
          subst h1
          subst h2
          refine ⟨hinv1, ?_⟩
          intro i hi
          have hie : i = st.store.length := by simpa using hi
          subst hie
          show st.store.length < (st.store ++ [rowObj]).length
          simp
        | some t =>
          by_cases hd : t.length < depthOf cfg.subcategory_indention g.1
          · simp only [if_pos hd] at h
            injection h with h1 h2
            injection h2 with h2 h3
            exact absurd h3 (by simp)
          · simp only [if_neg hd] at h
            cases hlast : (t.take (depthOf cfg.subcategory_indention g.1)).getLast? with
            | none =>
              simp only [hlast] at h
              injection h with h1 h2
              injection h2 with h2 h3
              subst h1
              subst h2
              refine ⟨hinv1, ?_⟩
              intro i hi
              show i < (st.store ++ [rowObj]).length
              rcases List.mem_append.mp hi with hm2 | hm2
              · have := htree i (List.mem_of_mem_take hm2)
                simp
                omega
              · have hie : i = st.store.length := by simpa using hm2
                subst hie
                simp
            | some pid =>
              simp only [hlast] at h
              have hpidlt : pid < st.store.length :=
                htree pid (List.mem_of_mem_take (mem_of_getLast_eq _ _ hlast))
              have hatt := attach_inv st.store rowObj pid hinv hpidlt hpar0 hchil0
              rw [hatt.1] at h
              injection h with h1 h2
              injection h2 with h2 h3
              subst h1
              subst h2
              refine ⟨hatt.2, ?_⟩
              intro i hi
              show i < (setRow (setRow (st.store ++ [rowObj]) st.store.length
                ⟨rowObj.name, rowObj.data, rowObj.fieldAttrs, some pid,
                 rowObj.children⟩) pid
                ⟨(getRow st.store pid).name, (getRow st.store pid).data,
                 (getRow st.store pid).fieldAttrs, (getRow st.store pid).parent,
                 (getRow st.store pid).children ++ [st.store.length]⟩).length
              rw [length_setRow, length_setRow]
              rcases List.mem_append.mp hi with hm2 | hm2
              · have := htree i (List.mem_of_mem_take hm2)
                simp
                omega
              · have hie : i = st.store.length := by simpa using hm2
                subst hie
                simp

theorem parseScan_inv (cfg : HirarchicalTableParser) :
    ∀ (lines : List String) (tree : Option (List Nat)) (st : ParseState)
      (tree' : Option (List Nat)) (st' : ParseState),
      StoreInv st.store → TreeOK st.store tree →
      parseScan cfg tree st lines = (tree', st', none) →
      StoreInv st'.store ∧ TreeOK st'.store tree' := by
  intro lines
  induction lines with
  | nil =>
    intro tree st tree' st' hinv htree h
    injection h with h1 h2
    injection h2 with h2 h3
    subst h1
    subst h2
    exact ⟨hinv, htree⟩
  | cons l ls ih =>
    intro tree st tree' st' hinv htree h
    simp only [parseScan] at h
    rcases hp : processLine cfg tree st l with ⟨tr1, st1, e⟩
    rw [hp] at h
    cases e with
    | none =>
      obtain ⟨hinv1, htree1⟩ :=
        processLine_inv cfg tree st l tr1 st1 hinv htree hp
      exact ih tr1 st1 tree' st' hinv1 htree1 h
    | some e0 =>
      injection h with h1 h2
      injection h2 with h2 h3
      exact absurd h3 (by simp)

/-- C10: after any successful `parse_lines` run from a consistent state (in
particular a fresh parser), parent and child back-references agree: a row's
parent is `p` exactly when the row occurs among `p`'s children, and then it
occurs there exactly once. -/
theorem c10_parent_child (cfg : HirarchicalTableParser) (st : ParseState)
    (lines : List String) (st' : ParseState)
    (hinv : StoreInv st.store)
    (hrun : parseLines cfg st lines = (st', none)) :
    ∀ r p, r < st'.store.length → p < st'.store.length →
      (((getRow st'.store r).parent = some p) ↔
        r ∈ (getRow st'.store p).children) ∧
      ((getRow st'.store r).parent = some p →
        ((getRow st'.store p).children).count r = 1) := by
  unfold parseLines at hrun
  rcases hscan : parseScan cfg none st lines with ⟨tr1, st1, e⟩
  rw [hscan] at hrun
  have hrun2 : (st1, e) = (st', none) := hrun
  injection hrun2 with h1 h2
  subst h1
  subst h2
  obtain ⟨hinv', -⟩ :=
    parseScan_inv cfg lines none st tr1 _ hinv trivial hscan
  intro r p hr hp2
  have hcount := hinv'.2.2 p r hp2
  constructor
  · constructor
    · intro hpar
      rw [if_pos hpar] at hcount
      have hpos : 0 < ((getRow st1.store p).children).count r := by omega
      exact List.count_pos_iff.mp hpos
    · intro hmem
      by_contra hne
      rw [if_neg hne] at hcount
      have := List.count_pos_iff.mpr hmem
      omega
  · intro hpar
    rw [if_pos hpar] at hcount
    exact hcount

/-- Witness for C10: the consistency statement on the parsed two-row
fixture, at the child row 1 and its parent row 0. -/
theorem c10_parent_child_witness :
    (((getRow storeC1 1).parent = some 0) ↔ 1 ∈ (getRow storeC1 0).children) ∧
    ((getRow storeC1 1).parent = some 0 →
      ((getRow storeC1 0).children).count 1 = 1) :=
  c10_parent_child cfgC1 ⟨[], []⟩ linesC1 ⟨storeC1, [0, 1]⟩ storeInv_nil rfl
    1 0 (by decide) (by decide)
